import Mathlib

set_option maxHeartbeats 1000000

/-!
Verification of the workspace version-control core of `sandbox_tool.py`
(object hashing, staging, diff, branch management, checkout/restore
working-tree synchronization, and workflow checkpoints).

The working tree, the staging index and tree objects are modelled as
association lists from workspace-relative paths to raw byte contents;
commit and object stores are modelled as lists.  All definitions are
executable translations of the Python handlers.
-/

/-! ## Core filesystem model -/

abbrev Content := List Nat

abbrev Disk := List (String × Content)

def diskPaths (d : Disk) : List String := d.map (·.1)

def lookupFile (d : Disk) (p : String) : Option Content :=
  match d.find? (fun e => e.1 == p) with
  | some e => some e.2
  | none => none

def setFile (d : Disk) (p : String) (c : Content) : Disk :=
  if (diskPaths d).contains p then
    d.map (fun e => if e.1 == p then (p, c) else e)
  else
    d ++ [(p, c)]

def removeFile (d : Disk) (p : String) : Disk :=
  d.filter (fun e => e.1 != p)

def contentOnDisk (d : Disk) (c : Content) : Bool :=
  d.any (fun e => e.2 == c)

/-! ## Blob hashing (`_get_file_sha`)

The source computes `sha1(b"blob <len>\0" + content)`.  The digest itself
is a library call, modelled as an abstract function over the encoded
bytes; the canonical encoding is modelled concretely. -/

def natDigitsAux (n : Nat) (acc : List Nat) : List Nat :=
  if h : n = 0 then acc
  else natDigitsAux (n / 10) ((n % 10 + 48) :: acc)
termination_by n
decreasing_by exact Nat.div_lt_self (Nat.pos_of_ne_zero h) (by decide)

/-- ASCII bytes of the decimal rendering of `n` (as `str(n)` would produce). -/
def natDecimalDigits (n : Nat) : List Nat :=
  if n = 0 then [48] else natDigitsAux n []

/-- Bytes of the header `"blob <len>"`. -/
def blobHeaderBytes (len : Nat) : List Nat :=
  [98, 108, 111, 98, 32] ++ natDecimalDigits len

/-- The canonical blob encoding `"blob " + byte_length + NUL + content`. -/
def blobEncode (c : Content) : List Nat :=
  blobHeaderBytes c.length ++ [0] ++ c

/-- `_get_file_sha`, with the digest abstracted. -/
def getFileSha (digest : List Nat → Nat) (c : Content) : Nat :=
  digest (blobEncode c)

theorem natDigitsAux_bounds (n : Nat) : ∀ (acc : List Nat),
    (∀ x ∈ acc, 48 ≤ x ∧ x ≤ 57) → ∀ x ∈ natDigitsAux n acc, 48 ≤ x ∧ x ≤ 57 := by
  induction n using Nat.strong_induction_on with
  | _ n ih =>
    intro acc hacc x hx
    rw [natDigitsAux] at hx
    split at hx
    · exact hacc x hx
    · next hn =>
      refine ih (n / 10) (Nat.div_lt_self (Nat.pos_of_ne_zero hn) (by decide)) _ ?_ x hx
      intro y hy
      rcases List.mem_cons.1 hy with h | h
      · subst h
        constructor
        · exact Nat.le_add_left 48 (n % 10)
        · have : n % 10 < 10 := Nat.mod_lt n (by decide)
          omega
      · exact hacc y h

theorem natDecimalDigits_bounds (n : Nat) :
    ∀ x ∈ natDecimalDigits n, 48 ≤ x ∧ x ≤ 57 := by
  intro x hx
  unfold natDecimalDigits at hx
  split at hx
  · rcases List.mem_singleton.1 hx with h
    subst h; exact ⟨Nat.le_refl _, by decide⟩
  · exact natDigitsAux_bounds n [] (by intro y hy; cases hy) x hx

theorem blobHeaderBytes_ne_zero (n : Nat) : ∀ x ∈ blobHeaderBytes n, x ≠ 0 := by
  intro x hx
  unfold blobHeaderBytes at hx
  rcases List.mem_append.1 hx with h | h
  · fin_cases h <;> decide
  · have := natDecimalDigits_bounds n x h
    omega

theorem append_zero_inj (a : List Nat) : ∀ (b x y : List Nat),
    (∀ u ∈ a, u ≠ 0) → (∀ u ∈ b, u ≠ 0) →
    a ++ 0 :: x = b ++ 0 :: y → a = b ∧ x = y := by
  induction a with
  | nil =>
    intro b x y _ hb h
    cases b with
    | nil =>
      simp only [List.nil_append] at h
      exact ⟨rfl, (List.cons.injEq _ _ _ _ ▸ h).2⟩
    | cons v b' =>
      simp only [List.nil_append, List.cons_append, List.cons.injEq] at h
      exact absurd h.1.symm (hb v (List.mem_cons_self v b'))
  | cons u a' ih =>
    intro b x y ha hb h
    cases b with
    | nil =>
      simp only [List.cons_append, List.nil_append, List.cons.injEq] at h
      exact absurd h.1 (ha u (List.mem_cons_self u a'))
    | cons v b' =>
      simp only [List.cons_append, List.cons.injEq] at h
      obtain ⟨huv, htail⟩ := h
      have := ih b' x y (fun z hz => ha z (List.mem_cons_of_mem u hz))
        (fun z hz => hb z (List.mem_cons_of_mem v hz)) htail
      exact ⟨by rw [huv, this.1], this.2⟩

/-- C8: A blob's identity is the digest of the canonical encoding
`"blob " + decimal byte length + NUL + content`; hashing a content twice
through this encoding yields the same object id, and the encoding itself
is injective, so distinct contents feed distinct byte strings to the
digest. -/
theorem blob_identity_canonical (digest : List Nat → Nat) (c₁ c₂ : Content) :
    (c₁ = c₂ → getFileSha digest c₁ = getFileSha digest c₂) ∧
    (blobEncode c₁ = blobEncode c₂ → c₁ = c₂) := by
  constructor
  · intro h; rw [h]
  · intro h
    unfold blobEncode at h
    rw [List.append_assoc, List.append_assoc] at h
    simp only [List.singleton_append] at h
    exact (append_zero_inj _ _ _ _ (blobHeaderBytes_ne_zero _)
      (blobHeaderBytes_ne_zero _) h).2

theorem blob_identity_canonical_witness :
    getFileSha List.length [3, 5] = getFileSha List.length [3, 5] ∧
    ([3, 5] : Content) = [3, 5] :=
  ⟨(blob_identity_canonical List.length [3, 5] [3, 5]).1 rfl,
   (blob_identity_canonical List.length [3, 5] [3, 5]).2 rfl⟩

/-! ## Working-tree synchronization (`_checkout_branch`, `_git_restore`)

Each synchronization is modelled as the sequence of primitive filesystem
actions the Python code performs, in the order it performs them, so that
intermediate on-disk states (prefixes of the action list) can be
inspected.  Trees are flat path-to-content maps, matching the shape the
handlers produce for single-level repositories. -/

inductive FsAction where
  | write (p : String) (c : Content)
  | remove (p : String)
deriving DecidableEq, Repr

def fsActionPath : FsAction → String
  | .write p _ => p
  | .remove p => p

def applyFsAction (d : Disk) : FsAction → Disk
  | .write p c => setFile d p c
  | .remove p => removeFile d p

def applyFsActions (acts : List FsAction) (d : Disk) : Disk :=
  acts.foldl applyFsAction d

/-- `_reset_working_tree`: write every blob of the target tree to disk,
in tree order. -/
def resetWritePass (target : Disk) : List FsAction :=
  target.map (fun e => .write e.1 e.2)

/-- `_remove_untracked_files`: delete every on-disk file whose path the
target tree does not track. -/
def removeUntrackedPass (tracked : List String) (d : Disk) : List FsAction :=
  ((diskPaths d).filter (fun p => !(tracked.contains p))).map .remove

/-- `_checkout_branch` working-tree synchronization: first the write
pass over the target tree, then the delete pass over the resulting
disk. -/
def checkoutActions (target : Disk) (d : Disk) : List FsAction :=
  let writes := resetWritePass target
  writes ++ removeUntrackedPass (diskPaths target) (applyFsActions writes d)

/-- `_git_restore`'s first loop: delete every on-disk file whose path is
not in the target tree.  This runs before any file of the target tree is
written. -/
def restoreDeletePass (target : Disk) (d : Disk) : List FsAction :=
  ((diskPaths d).filter (fun p => !((diskPaths target).contains p))).map .remove

/-- `_git_restore` working-tree synchronization: the delete loop over
tracked paths, then `write_tree_to_path`, then (when `clean`) the
untracked-file cleanup. -/
def restoreActions (target : Disk) (d : Disk) (clean : Bool) : List FsAction :=
  let dels := restoreDeletePass target d
  let writes := resetWritePass target
  dels ++ writes ++
    (if clean then
      removeUntrackedPass (diskPaths target) (applyFsActions (dels ++ writes) d)
    else [])

theorem lookupFile_mem_paths {d : Disk} {p : String} :
    p ∈ diskPaths d → (lookupFile d p).isSome := by
  intro hp
  rcases List.mem_map.1 hp with ⟨e, he, hep⟩
  rcases hfind : d.find? (fun e => e.1 == p) with _ | f
  · have := List.find?_eq_none.1 hfind e he
    rw [hep] at this
    simp at this
  · simp [lookupFile, hfind]

theorem mem_paths_of_lookupFile {d : Disk} {p : String} :
    (lookupFile d p).isSome → p ∈ diskPaths d := by
  intro hp
  unfold lookupFile at hp
  rcases hfind : d.find? (fun e => e.1 == p) with _ | f
  · rw [hfind] at hp; simp at hp
  · have hmem := List.mem_of_find?_eq_some hfind
    have hbeq := List.find?_some hfind
    have : f.1 = p := by simpa using hbeq
    exact this ▸ List.mem_map_of_mem (·.1) hmem

theorem mem_setFile_of_ne {d : Disk} {p q : String} {c c' : Content}
    (hm : (p, c) ∈ d) (hne : p ≠ q) : (p, c) ∈ setFile d q c' := by
  unfold setFile
  split
  · refine List.mem_map.2 ⟨(p, c), hm, ?_⟩
    simp [hne]
  · exact List.mem_append_left _ hm

theorem mem_setFile_self (d : Disk) (p : String) (c : Content) :
    (p, c) ∈ setFile d p c := by
  unfold setFile
  split
  · next hcon =>
    have hp : p ∈ diskPaths d := by
      have := List.contains_iff_exists_mem_beq.1 hcon
      rcases this with ⟨a, ha, hab⟩
      have : p = a := by simpa using (beq_iff_eq.1 hab)
      exact this ▸ ha
    rcases List.mem_map.1 hp with ⟨e, he, hep⟩
    refine List.mem_map.2 ⟨e, he, ?_⟩
    simp [hep]
  · exact List.mem_append_right _ (List.mem_singleton.2 rfl)

theorem mem_removeFile_of_ne {d : Disk} {p q : String} {c : Content}
    (hm : (p, c) ∈ d) (hne : p ≠ q) : (p, c) ∈ removeFile d q := by
  unfold removeFile
  refine List.mem_filter.2 ⟨hm, ?_⟩
  simp [hne]

theorem mem_applyFsActions_untouched :
    ∀ (acts : List FsAction) (d : Disk) (p : String) (c : Content),
    (p, c) ∈ d → (∀ a ∈ acts, fsActionPath a ≠ p) →
    (p, c) ∈ applyFsActions acts d := by
  intro acts
  induction acts with
  | nil => intro d p c hm _; exact hm
  | cons a rest ih =>
    intro d p c hm hall
    have hpa : fsActionPath a ≠ p := hall a (List.mem_cons_self a rest)
    have hrest : ∀ b ∈ rest, fsActionPath b ≠ p :=
      fun b hb => hall b (List.mem_cons_of_mem a hb)
    show (p, c) ∈ applyFsActions rest (applyFsAction d a)
    refine ih _ p c ?_ hrest
    cases a with
    | write q c' => exact mem_setFile_of_ne hm (fun h => hpa (by simp [fsActionPath, h]))
    | remove q => exact mem_removeFile_of_ne hm (fun h => hpa (by simp [fsActionPath, h]))

theorem mem_applyWrites (target : Disk) :
    ∀ (d : Disk), (diskPaths target).Nodup →
    ∀ p c, (p, c) ∈ target → (p, c) ∈ applyFsActions (resetWritePass target) d := by
  induction target with
  | nil => intro d _ p c hm; cases hm
  | cons e rest ih =>
    intro d hnd p c hm
    have hnd' : (diskPaths rest).Nodup := (List.nodup_cons.1 hnd).2
    have hhead : e.1 ∉ diskPaths rest := (List.nodup_cons.1 hnd).1
    show (p, c) ∈ applyFsActions (resetWritePass rest) (setFile d e.1 e.2)
    rcases List.mem_cons.1 hm with h | h
    · subst h
      refine mem_applyFsActions_untouched _ _ _ _ (mem_setFile_self d p c) ?_
      intro a ha
      rcases List.mem_map.1 ha with ⟨f, hf, hfa⟩
      intro hap
      rw [← hfa] at hap
      simp only [fsActionPath] at hap
      exact hhead (hap ▸ List.mem_map_of_mem (·.1) hf)
    · exact ih _ hnd' p c h

theorem contentOnDisk_of_mem {d : Disk} {p : String} {c : Content}
    (h : (p, c) ∈ d) : contentOnDisk d c = true := by
  unfold contentOnDisk
  exact List.any_eq_true.2 ⟨(p, c), h, by simp⟩

theorem mem_applyRemoves (ps : List String) : ∀ (d : Disk) (e : String × Content),
    e ∈ applyFsActions (ps.map .remove) d ↔ e ∈ d ∧ ps.contains e.1 = false := by
  induction ps with
  | nil =>
    intro d e
    simp [applyFsActions]
  | cons p ps ih =>
    intro d e
    have : applyFsActions ((p :: ps).map .remove) d
        = applyFsActions (ps.map .remove) (removeFile d p) := rfl
    rw [this, ih]
    unfold removeFile
    rw [List.mem_filter]
    simp only [List.contains_cons, Bool.or_eq_false_iff, bne_iff_ne, ne_eq,
      beq_eq_false_iff_ne]
    tauto

/-- C2 (amended): checkout synchronizes in write-pass-then-delete-pass
order, so a renamed content (present at `pNew` in the target tree and at
`pOld` on disk) stays present on disk at every intermediate step; restore
instead begins with a delete pass — a prefix of its action sequence —
after which the last on-disk copy of the renamed content is already gone
although no file of the target tree has been written yet. -/
theorem sync_rename_order (target d : Disk) (pOld pNew : String) (c : Content)
    (clean : Bool) (n : Nat)
    (hnd : (diskPaths target).Nodup)
    (hold : (pOld, c) ∈ d)
    (holdnt : (diskPaths target).contains pOld = false)
    (hnew : (pNew, c) ∈ target)
    (hlast : ∀ e ∈ d, e.2 = c → e.1 = pOld) :
    contentOnDisk (applyFsActions ((checkoutActions target d).take n) d) c = true ∧
    (restoreActions target d clean).take (restoreDeletePass target d).length
      = restoreDeletePass target d ∧
    contentOnDisk (applyFsActions (restoreDeletePass target d) d) c = false := by
  have hOldNotMem : pOld ∉ diskPaths target := by simpa using holdnt
  have hNewMem : pNew ∈ diskPaths target := List.mem_map_of_mem (·.1) hnew
  refine ⟨?_, ?_, ?_⟩
  · -- checkout: every prefix of the action sequence keeps a copy of `c`
    have hco : checkoutActions target d
        = resetWritePass target ++
          removeUntrackedPass (diskPaths target)
            (applyFsActions (resetWritePass target) d) := rfl
    set W := resetWritePass target with hW
    set R := removeUntrackedPass (diskPaths target) (applyFsActions W d) with hR
    rw [hco, List.take_append_eq_append_take, applyFsActions, List.foldl_append]
    by_cases hn : n ≤ W.length
    · have : n - W.length = 0 := Nat.sub_eq_zero_of_le hn
      rw [this]
      simp only [List.take_zero, List.foldl_nil]
      refine contentOnDisk_of_mem (p := pOld) ?_
      refine mem_applyFsActions_untouched _ _ _ _ hold ?_
      intro a ha
      have haW : a ∈ W := List.take_subset n W ha
      rcases List.mem_map.1 haW with ⟨f, hf, hfa⟩
      intro hap
      rw [← hfa] at hap
      simp only [fsActionPath] at hap
      exact hOldNotMem (hap ▸ List.mem_map_of_mem (·.1) hf)
    · have hlen : W.length ≤ n := Nat.le_of_not_le hn
      rw [List.take_of_length_le hlen]
      refine contentOnDisk_of_mem (p := pNew) ?_
      show (pNew, c) ∈ applyFsActions (R.take (n - W.length)) (applyFsActions W d)
      refine mem_applyFsActions_untouched _ _ _ _ (mem_applyWrites target d hnd pNew c hnew) ?_
      intro a ha
      have haR : a ∈ R := List.take_subset _ R ha
      rcases List.mem_map.1 haR with ⟨r, hr, hra⟩
      rcases List.mem_filter.1 hr with ⟨_, hrnt⟩
      intro hap
      rw [← hra] at hap
      simp only [fsActionPath] at hap
      rw [hap] at hrnt
      have : (diskPaths target).contains pNew = true := by simpa using hNewMem
      simp [this] at hrnt
      exact hrnt hNewMem
  · -- the delete pass is a prefix of restore's action sequence
    have hre : restoreActions target d clean
        = restoreDeletePass target d ++ resetWritePass target ++
          (if clean then
            removeUntrackedPass (diskPaths target)
              (applyFsActions (restoreDeletePass target d ++ resetWritePass target) d)
          else []) := rfl
    rw [hre, List.append_assoc]
    exact List.take_left _ _
  · -- after restore's delete pass no copy of `c` is left on disk
    unfold restoreDeletePass
    rw [contentOnDisk]
    rw [Bool.eq_false_iff]
    intro hany
    rcases List.any_eq_true.1 hany with ⟨e, he, hec⟩
    have hec' : e.2 = c := by simpa using hec
    rcases (mem_applyRemoves _ _ _).1 he with ⟨hed, hcon⟩
    have hepOld : e.1 = pOld := hlast e hed hec'
    have hpOldMem : pOld ∈ (diskPaths d).filter
        (fun p => !((diskPaths target).contains p)) := by
      refine List.mem_filter.2 ⟨List.mem_map_of_mem (·.1) hold, ?_⟩
      simpa using hOldNotMem
    rw [hepOld] at hcon
    have : pOld ∉ (diskPaths d).filter (fun p => !((diskPaths target).contains p)) := by
      simpa using hcon
    exact this hpOldMem

theorem sync_rename_order_witness :
    contentOnDisk (applyFsActions
      ((checkoutActions [("b", [1])] [("a", [1])]).take 2) [("a", [1])]) [1] = true ∧
    (restoreActions [("b", [1])] [("a", [1])] true).take
      (restoreDeletePass [("b", [1])] [("a", [1])]).length
      = restoreDeletePass [("b", [1])] [("a", [1])] ∧
    contentOnDisk (applyFsActions
      (restoreDeletePass [("b", [1])] [("a", [1])]) [("a", [1])]) [1] = false :=
  sync_rename_order [("b", [1])] [("a", [1])] "a" "b" [1] true 2
    (by decide) (by decide) (by decide) (by decide) (by decide)

/-- C2 counterexample: the claim states restore also writes the target
tree before deleting; but with working tree `{a ↦ [1]}` and target tree
`{b ↦ [1]}` (a rename of `a` to `b`), after the first action of
`_git_restore`'s synchronization the only on-disk copy of `[1]` is
already deleted while the new path has not been written yet. -/
theorem restore_sync_order_counterexample :
    contentOnDisk [("a", [1])] [1] = true ∧
    ("b", ([1] : Content)) ∈ ([("b", [1])] : Disk) ∧
    contentOnDisk
      (applyFsActions ((restoreActions [("b", [1])] [("a", [1])] true).take 1)
        [("a", [1])]) [1] = false := by
  refine ⟨by decide, by decide, ?_⟩
  decide

/-! ## Per-file failure semantics during synchronization (C7)

`write_tree_to_path` (in `_git_restore`) and `_reset_working_tree` (in
`_checkout_branch`) write files with no per-file exception handler, so
the first failing write raises and the surrounding handler turns the
whole operation into a failure result.  The delete loops wrap each
`os.remove` in `try/except: pass`.  The `ok` oracle says which paths the
filesystem lets us write/delete. -/

def writeTreeFilesExc (ok : String → Bool) :
    List (String × Content) → Disk → Except (String × Disk) Disk
  | [], d => .ok d
  | e :: rest, d =>
    if ok e.1 then writeTreeFilesExc ok rest (setFile d e.1 e.2)
    else .error (e.1, d)

/-- `_remove_untracked_files`: each delete is wrapped in
`try: os.remove(...) except: pass`, so a failing delete keeps the file,
processing continues, and nothing records which paths failed. -/
def removeUntrackedExc (tracked : List String) (ok : String → Bool) (d : Disk) : Disk :=
  d.filter (fun e => tracked.contains e.1 || !(ok e.1))

/-- C7 (amended): a per-file DELETE failure is silently swallowed — the
remaining deletions still happen and the failed file simply stays, with
no failed-path list produced — while a per-file WRITE failure raises at
once: the writes after the failing one are not performed and the
operation surfaces an error instead of a partial-success report. -/
theorem sync_failure_semantics (tracked : List String) (ok : String → Bool) (d : Disk)
    (p : String) (c : Content) (rest : List (String × Content)) :
    (∀ e ∈ d, tracked.contains e.1 = false → ok e.1 = true →
      e ∉ removeUntrackedExc tracked ok d) ∧
    (∀ e ∈ d, ok e.1 = false → e ∈ removeUntrackedExc tracked ok d) ∧
    (ok p = false → writeTreeFilesExc ok ((p, c) :: rest) d = .error (p, d)) := by
  refine ⟨?_, ?_, ?_⟩
  · intro e he hnt hok hmem
    rcases List.mem_filter.1 hmem with ⟨_, hpred⟩
    rw [hnt, hok] at hpred
    simp at hpred
  · intro e he hok
    refine List.mem_filter.2 ⟨he, ?_⟩
    rw [hok]
    simp
  · intro hbad
    unfold writeTreeFilesExc
    rw [hbad]
    simp

theorem sync_failure_semantics_witness :
    (("a", [1]) : String × Content) ∉
      removeUntrackedExc ["keep"] (fun _ => true) [("a", [1])] ∧
    (("b", [2]) : String × Content) ∈
      removeUntrackedExc ["keep"] (fun _ => false) [("b", [2])] ∧
    writeTreeFilesExc (fun q => q != "a") [("a", [1]), ("b", [2])] [] = .error ("a", []) :=
  ⟨(sync_failure_semantics ["keep"] (fun _ => true) [("a", [1])] "a" [1] []).1
      ("a", [1]) (by decide) (by decide) (by decide),
   (sync_failure_semantics ["keep"] (fun _ => false) [("b", [2])] "b" [2] []).2.1
      ("b", [2]) (by decide) (by decide),
   (sync_failure_semantics [] (fun q => q != "a") [] "a" [1] [("b", [2])]).2.2 (by decide)⟩

/-- C7 counterexample: the claim says an individual write failure does
not abort the remaining paths and that failed paths are reported as a
partial-success list; but when writing `a` fails, the write loop stops
with an exception before `b` is ever written — the disk carried by the
error is still empty. -/
theorem sync_failure_counterexample :
    writeTreeFilesExc (fun q => q != "a") [("a", [1]), ("b", [2])] []
      = .error ("a", []) ∧
    contentOnDisk [] [2] = false := by
  constructor
  · rfl
  · rfl

/-! ## Short checkpoint-id resolution (`_git_restore`, C3) -/

inductive ResolveOutcome where
  | resolved (sha : String)
  | notFound
  | invalid
deriving DecidableEq, Repr

def charsStartWith : List Char → List Char → Bool
  | _, [] => true
  | [], _ :: _ => false
  | a :: as, b :: bs => a == b && charsStartWith as bs

/-- `str.startswith`. -/
def strStartsWith (s pre : String) : Bool := charsStartWith s.data pre.data

/-- `str.lower` (ASCII, which is all hex ids need). -/
def strToLower (s : String) : String := String.mk (s.data.map Char.toLower)

def stripAsciiWs (s : String) : List Char :=
  s.data.filter (fun c => !c.isWhitespace)

/-- Hex value of one ASCII hex digit. -/
def hexCharVal (c : Char) : Option Nat :=
  if 48 ≤ c.toNat ∧ c.toNat ≤ 57 then some (c.toNat - 48)
  else if 97 ≤ c.toNat ∧ c.toNat ≤ 102 then some (c.toNat - 87)
  else if 65 ≤ c.toNat ∧ c.toNat ≤ 70 then some (c.toNat - 55)
  else none

def hexPairsToBytes : List Char → Option (List Nat)
  | [] => some []
  | [_] => none
  | c1 :: c2 :: rest =>
    match hexCharVal c1, hexCharVal c2, hexPairsToBytes rest with
    | some h, some l, some bs => some ((h * 16 + l) :: bs)
    | _, _, _ => none

/-- `bytes.fromhex`: ASCII whitespace is ignored, then two hex digits
per byte; anything else raises `ValueError` (modelled as `none`). -/
def pyFromHex (s : String) : Option (List Nat) :=
  hexPairsToBytes (stripAsciiWs s)

def hexDigitChar (n : Nat) : Char :=
  if n < 10 then Char.ofNat (48 + n) else Char.ofNat (87 + n)

def pyBytesHexChars : List Nat → List Char
  | [] => []
  | b :: rest => hexDigitChar (b / 16 % 16) :: hexDigitChar (b % 16) :: pyBytesHexChars rest

/-- Python's `bytes.hex()`: two lowercase hex digits per byte. -/
def pyBytesHex (bs : List Nat) : String := String.mk (pyBytesHexChars bs)

/-- The ASCII codes of a string (a dulwich hex bytestring in memory). -/
def strAsciiBytes (s : String) : List Nat := s.data.map Char.toNat

/-- `_git_restore`'s checkpoint-id resolution.  The dulwich object store
iterates 40-character hex bytestring ids (modelled as hex strings), and
this tool only ever produces loose objects, whose storage is keyed by
those hex filenames.  `bytes.fromhex(checkpoint_id)` yields raw bytes;
looking those raw bytes up in the hex-keyed loose storage raises
`UnicodeDecodeError`/`ValueError` (caught as the invalid-id error) when
any byte is NUL or non-ASCII, and otherwise compares the ASCII-decoded
bytes against the hex filenames.  The short-hash scan compares
`obj_id.hex()` — the double hex encoding of the already-hex id — with
the lowercased input and `break`s at the first match. -/
def resolveCheckpointId (store : List String) (checkpointId : String) : ResolveOutcome :=
  match pyFromHex checkpointId with
  | none => .invalid
  | some raw =>
    if raw.any (fun b => b == 0 || 128 ≤ b) then .invalid
    else if store.contains (String.mk (raw.map Char.ofNat)) then
      .resolved (String.mk (raw.map Char.ofNat))
    else
      match store.find? (fun oid =>
        strStartsWith (pyBytesHex (strAsciiBytes oid)) (strToLower checkpointId)) with
      | some oid => .resolved oid
      | none => .notFound

/-- C3: the claim (and the code's own docstring, which promises restore
by short or full hash) requires a prefix carried by exactly one object
to resolve to it; but the scan compares the prefix against
`obj_id.hex()`, the double hex encoding of the already-hex store id, so
a genuine id prefix never matches — with the single object
`abab…ab` the unique prefix `"abab"` parses to the non-ASCII bytes
`\xab\xab` and the store lookup raises `ValueError` (the invalid-id
error), while with the single object `0123…0123` the unique prefix
`"0123"` yields NotFound.  AmbiguousId cannot arise because no genuine
prefix ever reaches a match, and the scan `break`s at its first hit
anyway. -/
theorem short_hash_resolution_bug :
    strStartsWith "abababababababababababababababababababab" "abab" = true ∧
    resolveCheckpointId ["abababababababababababababababababababab"] "abab"
      = .invalid ∧
    strStartsWith "0123012301230123012301230123012301230123" "0123" = true ∧
    resolveCheckpointId ["0123012301230123012301230123012301230123"] "0123"
      = .notFound := by
  refine ⟨by decide, by decide, by decide, by decide⟩

/-! ## Branch deletion (`_git_branch`, action `delete`, C4) -/

structure RefsState where
  branches : List (String × String)
  headRef : String
deriving DecidableEq, Repr

inductive BranchDeleteOutcome where
  | notFound
  | invalidOperation
  | deleted
deriving DecidableEq, Repr

def listBranchNames (st : RefsState) : List String := st.branches.map (·.1)

/-- The delete action of `_git_branch`: branch must exist; deleting the
branch HEAD's symbolic ref points at is refused; otherwise the ref is
removed. -/
def gitBranchDelete (st : RefsState) (name : String) : RefsState × BranchDeleteOutcome :=
  if !(listBranchNames st).contains name then (st, .notFound)
  else if st.headRef == "ref: refs/heads/" ++ name then (st, .invalidOperation)
  else ({ st with branches := st.branches.filter (fun e => e.1 != name) }, .deleted)

/-- C4: deleting the branch HEAD currently points to fails with the
invalid-operation error and leaves the refs unchanged; deleting any
other existing branch succeeds and removes it from the branch listing. -/
theorem delete_branch_spec (st : RefsState) (name : String) :
    (st.headRef = "ref: refs/heads/" ++ name → name ∈ listBranchNames st →
      gitBranchDelete st name = (st, .invalidOperation)) ∧
    (name ∈ listBranchNames st → st.headRef ≠ "ref: refs/heads/" ++ name →
      (gitBranchDelete st name).2 = .deleted ∧
      name ∉ listBranchNames (gitBranchDelete st name).1) := by
  constructor
  · intro hhead hmem
    unfold gitBranchDelete
    have hcon : (listBranchNames st).contains name = true := by simpa using hmem
    rw [hcon]
    have hbeq : (st.headRef == "ref: refs/heads/" ++ name) = true := by
      simp [hhead]
    rw [hbeq]
    simp
  · intro hmem hne
    unfold gitBranchDelete
    have hcon : (listBranchNames st).contains name = true := by simpa using hmem
    have hbeq : (st.headRef == "ref: refs/heads/" ++ name) = false := by
      simp [hne]
    rw [hcon, hbeq]
    refine ⟨rfl, ?_⟩
    intro hbad
    rcases List.mem_map.1 hbad with ⟨e, he, hep⟩
    rcases List.mem_filter.1 he with ⟨_, hpred⟩
    rw [hep] at hpred
    simp at hpred

theorem delete_branch_spec_witness :
    gitBranchDelete ⟨[("main", "aaa"), ("dev", "bbb")], "ref: refs/heads/main"⟩ "main"
      = (⟨[("main", "aaa"), ("dev", "bbb")], "ref: refs/heads/main"⟩, .invalidOperation) ∧
    ((gitBranchDelete ⟨[("main", "aaa"), ("dev", "bbb")], "ref: refs/heads/main"⟩ "dev").2
        = .deleted ∧
      "dev" ∉ listBranchNames
        (gitBranchDelete ⟨[("main", "aaa"), ("dev", "bbb")], "ref: refs/heads/main"⟩ "dev").1) :=
  ⟨(delete_branch_spec ⟨[("main", "aaa"), ("dev", "bbb")], "ref: refs/heads/main"⟩ "main").1
      (by decide) (by decide),
   (delete_branch_spec ⟨[("main", "aaa"), ("dev", "bbb")], "ref: refs/heads/main"⟩ "dev").2
      (by decide) (by decide)⟩

/-! ## Commit (`_git_commit`, C9) -/

structure StagedStatus where
  adds : List String
  deletes : List String
  modifies : List String
deriving DecidableEq, Repr

def freshCommitId (commits : List Nat) : Nat := commits.foldl max 0 + 1

/-- `_git_commit`: requires a message; refuses to commit when the staged
add/delete/modify sets are all empty; otherwise records a new commit and
returns its id. -/
def gitCommitOp (commits : List Nat) (st : StagedStatus) (message : Option String) :
    List Nat × Except String Nat :=
  match message with
  | none => (commits, .error "Missing message parameter")
  | some _ =>
    if st.adds.isEmpty && st.deletes.isEmpty && st.modifies.isEmpty then
      (commits, .error "No changes staged for commit")
    else
      (commits ++ [freshCommitId commits], .ok (freshCommitId commits))

theorem foldl_max_bounds (l : List Nat) :
    ∀ (a : Nat), a ≤ l.foldl max a ∧ ∀ x ∈ l, x ≤ l.foldl max a := by
  induction l with
  | nil => intro a; exact ⟨Nat.le_refl a, by intro x hx; cases hx⟩
  | cons y ys ih =>
    intro a
    have hfold : List.foldl max a (y :: ys) = List.foldl max (max a y) ys := rfl
    rw [hfold]
    constructor
    · exact Nat.le_trans (Nat.le_max_left a y) (ih (max a y)).1
    · intro x hx
      rcases List.mem_cons.1 hx with h | h
      · rw [h]
        exact Nat.le_trans (Nat.le_max_right a y) (ih (max a y)).1
      · exact (ih (max a y)).2 x h

theorem freshCommitId_not_mem (commits : List Nat) : freshCommitId commits ∉ commits := by
  intro hmem
  have := (foldl_max_bounds commits 0).2 _ hmem
  unfold freshCommitId at this
  omega

/-- C9: with nothing staged the commit operation fails with the
nothing-staged error and the commit store is unchanged; with at least
one staged change it succeeds and returns the id of a genuinely new
commit appended to the store. -/
theorem commit_requires_staged (commits : List Nat) (st : StagedStatus) (m : String) :
    (st.adds = [] → st.deletes = [] → st.modifies = [] →
      gitCommitOp commits st (some m) = (commits, .error "No changes staged for commit")) ∧
    (¬(st.adds = [] ∧ st.deletes = [] ∧ st.modifies = []) →
      (gitCommitOp commits st (some m)).2 = .ok (freshCommitId commits) ∧
      (gitCommitOp commits st (some m)).1 = commits ++ [freshCommitId commits] ∧
      freshCommitId commits ∉ commits) := by
  constructor
  · intro ha hd hm
    unfold gitCommitOp
    rw [ha, hd, hm]
    simp
  · intro hne
    unfold gitCommitOp
    have : (st.adds.isEmpty && st.deletes.isEmpty && st.modifies.isEmpty) = false := by
      rcases Bool.eq_false_or_eq_true
        (st.adds.isEmpty && st.deletes.isEmpty && st.modifies.isEmpty) with h | h
      · exfalso
        apply hne
        rw [Bool.and_eq_true, Bool.and_eq_true] at h
        exact ⟨List.isEmpty_iff.1 h.1.1, List.isEmpty_iff.1 h.1.2, List.isEmpty_iff.1 h.2⟩
      · exact h
    rw [this]
    exact ⟨rfl, rfl, freshCommitId_not_mem commits⟩

theorem commit_requires_staged_witness :
    gitCommitOp [4] ⟨[], [], []⟩ (some "msg")
      = ([4], .error "No changes staged for commit") ∧
    ((gitCommitOp [4] ⟨["x.txt"], [], []⟩ (some "msg")).2 = .ok (freshCommitId [4]) ∧
      (gitCommitOp [4] ⟨["x.txt"], [], []⟩ (some "msg")).1 = [4] ++ [freshCommitId [4]] ∧
      freshCommitId [4] ∉ [4]) :=
  ⟨(commit_requires_staged [4] ⟨[], [], []⟩ "msg").1 rfl rfl rfl,
   (commit_requires_staged [4] ⟨["x.txt"], [], []⟩ "msg").2 (by simp)⟩

/-! ## Top-level dispatcher (`execute`, C10) -/

/-- The operation names registered in `execute`'s handler table. -/
def handlerNames : List String :=
  ["unzip", "zip_create", "exec", "list", "read", "write", "delete", "mkdir",
   "copy", "move", "stat", "exists", "python_exec", "process_image",
   "convert_excel", "extract_pdf_text", "download_file", "sqlite_query",
   "sqlite_tables", "git_init", "git_status", "git_log", "git_diff", "git_add",
   "git_commit", "git_branch", "git_checkout", "git_rm", "git_mv",
   "git_checkpoint", "git_restore", "git_list_checkpoints", "exec_script",
   "exec_js", "exec_lua", "analyze_code", "compile_check", "install_tool",
   "list_available_packages"]

inductive ExecOutput (V : Type) where
  | result (v : V)
  | failure (errorMsg : String) (availableOperations : Option (List String))
deriving DecidableEq, Repr

/-- `execute`: dispatch on the operation name; an unknown name yields a
failure result listing the available operations; a handler that raises
is caught by the surrounding `except` and converted into a failure
result carrying the message.  Every call returns a result value — no
exception escapes. -/
def executeDispatch {V : Type} (impl : String → Except String V)
    (operation : String) : ExecOutput V :=
  if handlerNames.contains operation then
    match impl operation with
    | .ok v => .result v
    | .error e => .failure e none
  else
    .failure ("Unknown operation: " ++ operation) (some handlerNames)

/-- C10: the dispatcher is total — an unknown operation produces a
failure result listing the available operations, a handler exception is
converted into a failure result carrying the message, and a normal
handler value is passed through; in no case does an exception
propagate. -/
theorem execute_dispatch_total {V : Type} (impl : String → Except String V)
    (op : String) :
    (handlerNames.contains op = false →
      executeDispatch impl op
        = .failure ("Unknown operation: " ++ op) (some handlerNames)) ∧
    (∀ e, handlerNames.contains op = true → impl op = .error e →
      executeDispatch impl op = .failure e none) ∧
    (∀ v, handlerNames.contains op = true → impl op = .ok v →
      executeDispatch impl op = .result v) := by
  refine ⟨?_, ?_, ?_⟩
  · intro hcon
    unfold executeDispatch
    rw [hcon]
    simp
  · intro e hcon himpl
    unfold executeDispatch
    rw [hcon, himpl]
    simp
  · intro v hcon himpl
    unfold executeDispatch
    rw [hcon, himpl]
    simp

theorem execute_dispatch_total_witness :
    executeDispatch (V := Nat) (fun _ => .error "boom") "frobnicate"
      = .failure ("Unknown operation: " ++ "frobnicate") (some handlerNames) ∧
    executeDispatch (V := Nat) (fun _ => .error "boom") "git_commit"
      = .failure "boom" none ∧
    executeDispatch (V := Nat) (fun _ => .ok 7) "git_status" = .result 7 :=
  ⟨(execute_dispatch_total (fun _ => .error "boom") "frobnicate").1 (by decide),
   (execute_dispatch_total (fun _ => .error "boom") "git_commit").2.1 "boom"
      (by decide) rfl,
   (execute_dispatch_total (fun _ => .ok 7) "git_status").2.2 7 (by decide) rfl⟩

/-! ## Unstaged diff (`_diff_unstaged`, C6) -/

structure DiffRecord where
  changeType : String
  oldPath : Option String
  newPath : Option String
deriving DecidableEq, Repr

def matchesFilter (filter? : Option String) (p : String) : Bool :=
  match filter? with
  | none => true
  | some q => p == q

/-- `_get_file_sha` returning `sha1(...).hexdigest()`, with the digest
abstracted as a function to the hexdigest string. -/
def getFileShaStr (hexdigest : List Nat → String) (c : Content) : String :=
  hexdigest (blobEncode c)

/-- `_diff_unstaged`: pass 1 walks the staging index — dulwich keeps each
in-memory entry's `sha` as the 40-byte hex bytestring of the blob id
(modelled as its list of ASCII codes) — reporting a delete for a missing
on-disk file, and a modify when `_get_file_sha`'s freshly recomputed
hexdigest differs from `entry.sha.hex()`, the double hex encoding of
that bytestring; pass 2 walks the working tree, reporting an add for
every file the index does not track. -/
def diffUnstaged (hexdigest : List Nat → String) (index : List (String × List Nat))
    (disk : Disk) (filter? : Option String) : List DiffRecord :=
  (index.filterMap (fun e =>
    if matchesFilter filter? e.1 then
      match lookupFile disk e.1 with
      | none => some ⟨"delete", some e.1, none⟩
      | some c =>
        if getFileShaStr hexdigest c != pyBytesHex e.2 then
          some ⟨"modify", some e.1, some e.1⟩
        else none
    else none)) ++
  (disk.filterMap (fun e =>
    if matchesFilter filter? e.1 && !((index.map (·.1)).contains e.1) then
      some ⟨"add", none, some e.1⟩
    else none))

theorem pyBytesHexChars_length (bs : List Nat) :
    (pyBytesHexChars bs).length = 2 * bs.length := by
  induction bs with
  | nil => rfl
  | cons b rest ih =>
    simp only [pyBytesHexChars, List.length_cons, ih]
    omega

/-- C6: in `_diff_unstaged` the modify test compares the 40-character
hexdigest `_get_file_sha` recomputes with `entry.sha.hex()` — the
80-character double hex encoding of the index's already-hex sha — so the
two strings can never be equal, and every index-tracked path present on
disk is reported as a modify regardless of its content (the claim's
"modify when the hash differs" is the intended behavior the code
misses); a missing on-disk file is still reported as a delete and an
untracked on-disk file as an add. -/
theorem diff_unstaged_always_modify (hexdigest : List Nat → String)
    (index : List (String × List Nat)) (disk : Disk)
    (hdig : ∀ bs, (hexdigest bs).length = 40) :
    (∀ p sha c, (p, sha) ∈ index → sha.length = 40 → lookupFile disk p = some c →
      (⟨"modify", some p, some p⟩ : DiffRecord)
        ∈ diffUnstaged hexdigest index disk none) ∧
    (∀ p sha, (p, sha) ∈ index → lookupFile disk p = none →
      (⟨"delete", some p, none⟩ : DiffRecord)
        ∈ diffUnstaged hexdigest index disk none) ∧
    (∀ p c, (p, c) ∈ disk → p ∉ index.map (·.1) →
      (⟨"add", none, some p⟩ : DiffRecord)
        ∈ diffUnstaged hexdigest index disk none) := by
  refine ⟨?_, ?_, ?_⟩
  · intro p sha c hmem hlen hlook
    have hne : getFileShaStr hexdigest c ≠ pyBytesHex sha := by
      intro heq
      have h1 : (getFileShaStr hexdigest c).length = 40 := hdig _
      have h2 : (pyBytesHex sha).length = 80 := by
        show (pyBytesHexChars sha).length = 80
        rw [pyBytesHexChars_length, hlen]
      rw [heq, h2] at h1
      omega
    have hb : (getFileShaStr hexdigest c != pyBytesHex sha) = true := bne_iff_ne.2 hne
    refine List.mem_append_left _ (List.mem_filterMap.2 ⟨(p, sha), hmem, ?_⟩)
    simp [matchesFilter, hlook, hb]
  · intro p sha hmem hlook
    refine List.mem_append_left _ (List.mem_filterMap.2 ⟨(p, sha), hmem, ?_⟩)
    simp [matchesFilter, hlook]
  · intro p c hmem hnot
    refine List.mem_append_right _ (List.mem_filterMap.2 ⟨(p, c), hmem, ?_⟩)
    simp only [matchesFilter, Bool.true_and]
    simp only [Bool.not_eq_true']
    have hcon : ((index.map (·.1)).contains p) = false := by simpa using hnot
    simp [hcon]
    intro x hx
    exact hnot (List.mem_map_of_mem (·.1) hx)

theorem diff_unstaged_always_modify_witness :
    (⟨"modify", some "x.txt", some "x.txt"⟩ : DiffRecord)
      ∈ diffUnstaged (fun _ => String.mk (List.replicate 40 'a'))
        [("x.txt", List.replicate 40 97)] [("x.txt", [104, 105])] none ∧
    (⟨"delete", some "gone.txt", none⟩ : DiffRecord)
      ∈ diffUnstaged (fun _ => String.mk (List.replicate 40 'a'))
        [("gone.txt", List.replicate 40 97)] [("new.txt", [1])] none ∧
    (⟨"add", none, some "new.txt"⟩ : DiffRecord)
      ∈ diffUnstaged (fun _ => String.mk (List.replicate 40 'a'))
        [("gone.txt", List.replicate 40 97)] [("new.txt", [1])] none :=
  ⟨(diff_unstaged_always_modify (fun _ => String.mk (List.replicate 40 'a'))
      [("x.txt", List.replicate 40 97)] [("x.txt", [104, 105])]
      (fun _ => rfl)).1 "x.txt" (List.replicate 40 97) [104, 105]
      (by decide) (by decide) (by decide),
   (diff_unstaged_always_modify (fun _ => String.mk (List.replicate 40 'a'))
      [("gone.txt", List.replicate 40 97)] [("new.txt", [1])]
      (fun _ => rfl)).2.1 "gone.txt" (List.replicate 40 97) (by decide) (by decide),
   (diff_unstaged_always_modify (fun _ => String.mk (List.replicate 40 'a'))
      [("gone.txt", List.replicate 40 97)] [("new.txt", [1])]
      (fun _ => rfl)).2.2 "new.txt" [1] (by decide) (by decide)⟩

/-! ## Workflow checkpoints (`_git_checkpoint`, C1) -/

/-- The content of the LAST entry for `p` in a walk order (later writes
win), used to describe folding `setFile` over a whole working tree. -/
def lastAssoc (d : Disk) (p : String) : Option Content :=
  match d with
  | [] => none
  | e :: rest =>
    match lastAssoc rest p with
    | some c => some c
    | none => if e.1 == p then some e.2 else none

/-- `dulwich.porcelain.add(repo, ['.'])`: every working-tree file is
inserted into (or overwritten in) the index; index entries whose path is
no longer on disk are left in place (`add` never unstages). -/
def stageAll (index : Disk) (d : Disk) : Disk :=
  d.foldl (fun ix e => setFile ix e.1 e.2) index

/-- Staged `add` paths of `dulwich.porcelain.status`: index paths with no
HEAD-tree entry. -/
def stagedAdds (h i : Disk) : List String :=
  (diskPaths i).filter (fun p => (lookupFile h p).isNone)

/-- Staged `delete` paths: HEAD-tree paths with no index entry. -/
def stagedDeletes (h i : Disk) : List String :=
  (diskPaths h).filter (fun p => (lookupFile i p).isNone)

/-- Staged `modify` paths: present on both sides with different blobs. -/
def stagedModifies (h i : Disk) : List String :=
  (diskPaths i).filter (fun p =>
    match lookupFile h p, lookupFile i p with
    | some a, some b => a != b
    | _, _ => false)

/-- `any([staged['add'], staged['delete'], staged['modify']])`. -/
def hasStagedChanges (h i : Disk) : Bool :=
  !(stagedAdds h i).isEmpty || !(stagedDeletes h i).isEmpty ||
    !(stagedModifies h i).isEmpty

structure CommitObj where
  cid : Nat
  tree : Disk
  parent : Option Nat
  message : String
deriving DecidableEq, Repr

structure RepoState where
  disk : Disk
  index : Disk
  headCommit : Option Nat
  commits : List CommitObj
deriving DecidableEq, Repr

def findCommit (commits : List CommitObj) (i : Nat) : Option CommitObj :=
  commits.find? (fun c => c.cid == i)

/-- The tree of the commit HEAD points to (the empty tree when the
repository has no commits, which is what `status` compares against). -/
def headTreeOf (st : RepoState) : Disk :=
  match st.headCommit with
  | none => []
  | some h =>
    match findCommit st.commits h with
    | some c => c.tree
    | none => []

def freshRepoCommitId (st : RepoState) : Nat :=
  (st.commits.map (·.cid)).foldl max 0 + 1

def checkpointMessage (message : String) (boundIdx : Option Int) : String :=
  "[WORKFLOW-CHECKPOINT] " ++ message ++
    (match boundIdx with
     | some i => " | message_index=" ++ toString i
     | none => "")

/-- `_git_checkpoint`: stage all working-tree files, compare HEAD's tree
against the index; commit the index if anything changed, otherwise
return the current HEAD commit id (`repo.head()` raising on an empty
repository becomes the error result). -/
def gitCheckpoint (st : RepoState) (message : String) (boundIdx : Option Int) :
    RepoState × Except String Nat :=
  if hasStagedChanges (headTreeOf st) (stageAll st.index st.disk) then
    ({ st with
        index := stageAll st.index st.disk
        headCommit := some (freshRepoCommitId st)
        commits := st.commits ++
          [⟨freshRepoCommitId st, stageAll st.index st.disk, st.headCommit,
            checkpointMessage message boundIdx⟩] },
     .ok (freshRepoCommitId st))
  else
    match st.headCommit with
    | some h => ({ st with index := stageAll st.index st.disk }, .ok h)
    | none => ({ st with index := stageAll st.index st.disk },
        .error "Git checkpoint failed")

theorem lookupFile_cons (e : String × Content) (d : Disk) (p : String) :
    lookupFile (e :: d) p = if e.1 == p then some e.2 else lookupFile d p := by
  cases hb : (e.1 == p) with
  | false => simp [lookupFile, List.find?_cons, hb]
  | true => simp [lookupFile, List.find?_cons, hb]

theorem lookupFile_append (d₁ d₂ : Disk) (p : String) :
    lookupFile (d₁ ++ d₂) p =
      match lookupFile d₁ p with
      | some c => some c
      | none => lookupFile d₂ p := by
  unfold lookupFile
  rw [List.find?_append]
  cases hf : List.find? (fun e => e.1 == p) d₁ with
  | none => simp [hf]
  | some f => simp [hf]


theorem lookupFile_mapOverwrite_ne (q : String) (c : Content) :
    ∀ (d : Disk) (p : String), p ≠ q →
    lookupFile (d.map (fun e => if e.1 == q then (q, c) else e)) p = lookupFile d p := by
  intro d
  induction d with
  | nil => intro p _; rfl
  | cons e rest ih =>
    intro p hpq
    have hqp : (q == p) = false := beq_eq_false_iff_ne.2 (fun h => hpq h.symm)
    cases hb : (e.1 == q) with
    | true =>
      have heq' : e.1 = q := by simpa using hb
      have hqp' : ¬q = p := fun h => hpq h.symm
      have ih' := ih p hpq
      simp only [beq_iff_eq] at ih'
      simp [lookupFile_cons, heq', hqp', ih']
    | false =>
      have hb' : ¬e.1 = q := by simpa using hb
      cases hep : (e.1 == p) with
      | true =>
        have hep' : e.1 = p := by simpa using hep
        simp [lookupFile_cons, hb', hep', hpq]
      | false =>
        have hep' : ¬e.1 = p := by simpa using hep
        have ih' := ih p hpq
        simp only [beq_iff_eq] at ih'
        simp [lookupFile_cons, hb', hep', ih']

theorem lookupFile_mapOverwrite_self (q : String) (c : Content) :
    ∀ (d : Disk), (diskPaths d).contains q = true →
    lookupFile (d.map (fun e => if e.1 == q then (q, c) else e)) q = some c := by
  intro d
  induction d with
  | nil => intro h; simp [diskPaths] at h
  | cons e rest ih =>
    intro hcon
    cases hb : (e.1 == q) with
    | true =>
      have heq' : e.1 = q := by simpa using hb
      simp [lookupFile_cons, heq']
    | false =>
      have hq : (diskPaths rest).contains q = true := by
        have hmem : q ∈ diskPaths (e :: rest) := by simpa using hcon
        have hco : diskPaths (e :: rest) = e.1 :: diskPaths rest := rfl
        rw [hco] at hmem
        rcases List.mem_cons.1 hmem with h | h
        · exfalso
          rw [h] at hb
          simp at hb
        · simpa using h
      have hb' : ¬e.1 = q := by simpa using hb
      have ih' := ih hq
      simp only [beq_iff_eq] at ih'
      simp [lookupFile_cons, hb', ih']

theorem lookupFile_notMem_none {d : Disk} {p : String}
    (h : p ∉ diskPaths d) : lookupFile d p = none := by
  rcases hl : lookupFile d p with _ | c
  · rfl
  · exact absurd (mem_paths_of_lookupFile (by rw [hl]; rfl)) h

theorem lookupFile_setFile (d : Disk) (q : String) (c : Content) (p : String) :
    lookupFile (setFile d q c) p = if p = q then some c else lookupFile d p := by
  unfold setFile
  by_cases hcon : (diskPaths d).contains q = true
  · rw [if_pos hcon]
    by_cases hpq : p = q
    · subst hpq
      rw [if_pos rfl]
      exact lookupFile_mapOverwrite_self p c d hcon
    · rw [if_neg hpq]
      exact lookupFile_mapOverwrite_ne q c d p hpq
  · have hcon' : (diskPaths d).contains q = false := by
      cases h : (diskPaths d).contains q
      · rfl
      · exact absurd h hcon
    rw [if_neg hcon, lookupFile_append]
    by_cases hpq : p = q
    · subst hpq
      have hnone : lookupFile d p = none :=
        lookupFile_notMem_none (by simpa using hcon')
      rw [hnone, if_pos rfl]
      simp [lookupFile]
    · rw [if_neg hpq]
      rcases hl : lookupFile d p with _ | c'
      · have hqp : (q == p) = false := beq_eq_false_iff_ne.2 (fun h => hpq h.symm)
        simp [lookupFile, hqp]
      · simp

theorem stageAll_cons (m : Disk) (e : String × Content) (rest : Disk) :
    stageAll m (e :: rest) = stageAll (setFile m e.1 e.2) rest := rfl

theorem lookupFile_stageAll (d : Disk) : ∀ (m : Disk) (p : String),
    lookupFile (stageAll m d) p =
      match lastAssoc d p with
      | some c => some c
      | none => lookupFile m p := by
  induction d with
  | nil => intro m p; rfl
  | cons e rest ih =>
    intro m p
    rw [stageAll_cons, ih]
    have hl : lastAssoc (e :: rest) p =
        match lastAssoc rest p with
        | some c => some c
        | none => if e.1 == p then some e.2 else none := rfl
    rw [hl]
    rcases lastAssoc rest p with _ | c
    · rw [lookupFile_setFile]
      by_cases hpq : p = e.1
      · subst hpq
        simp
      · have hep : (e.1 == p) = false := beq_eq_false_iff_ne.2 (fun h => hpq h.symm)
        simp [hpq, hep]
    · rfl

theorem lookupFile_stageAll_idem (i d : Disk) (p : String) :
    lookupFile (stageAll (stageAll i d) d) p = lookupFile (stageAll i d) p := by
  rw [lookupFile_stageAll, lookupFile_stageAll]
  rcases h : lastAssoc d p with _ | c <;> simp

theorem stagedLists_empty_iff (h i : Disk) :
    hasStagedChanges h i = false ↔
      stagedAdds h i = [] ∧ stagedDeletes h i = [] ∧ stagedModifies h i = [] := by
  unfold hasStagedChanges
  simp [Bool.or_eq_false_iff, List.isEmpty_iff, and_assoc]

theorem hasStagedChanges_self (h : Disk) : hasStagedChanges h h = false := by
  rw [stagedLists_empty_iff]
  unfold stagedAdds stagedDeletes stagedModifies
  refine ⟨?_, ?_, ?_⟩
  · rw [List.filter_eq_nil_iff]
    intro p hp hn
    have hs := lookupFile_mem_paths hp
    rw [Option.isNone_iff_eq_none] at hn
    rw [hn] at hs
    simp at hs
  · rw [List.filter_eq_nil_iff]
    intro p hp hn
    have hs := lookupFile_mem_paths hp
    rw [Option.isNone_iff_eq_none] at hn
    rw [hn] at hs
    simp at hs
  · rw [List.filter_eq_nil_iff]
    intro p hp hpred
    rcases hl : lookupFile h p with _ | a
    · rw [hl] at hpred
      simp at hpred
    · rw [hl] at hpred
      simp at hpred

theorem hasStagedChanges_congr (h i₁ i₂ : Disk)
    (h₁ : hasStagedChanges h i₁ = false)
    (heq : ∀ p, lookupFile i₂ p = lookupFile i₁ p) :
    hasStagedChanges h i₂ = false := by
  rw [stagedLists_empty_iff] at h₁ ⊢
  obtain ⟨ha, hd, hm⟩ := h₁
  unfold stagedAdds at ha
  unfold stagedDeletes at hd
  unfold stagedModifies at hm
  unfold stagedAdds stagedDeletes stagedModifies
  rw [List.filter_eq_nil_iff] at ha hd hm
  refine ⟨?_, ?_, ?_⟩
  · rw [List.filter_eq_nil_iff]
    intro p hp hn
    have hs2 : (lookupFile i₂ p).isSome := lookupFile_mem_paths hp
    have hs1 : (lookupFile i₁ p).isSome := by rw [← heq p]; exact hs2
    exact ha p (mem_paths_of_lookupFile hs1) hn
  · rw [List.filter_eq_nil_iff]
    intro p hp hn
    rw [Option.isNone_iff_eq_none, heq p, ← Option.isNone_iff_eq_none] at hn
    exact hd p hp hn
  · rw [List.filter_eq_nil_iff]
    intro p hp hpred
    rcases hlh : lookupFile h p with _ | a
    · rw [hlh] at hpred
      simp at hpred
    · rcases hl2 : lookupFile i₂ p with _ | b
      · rw [hlh, hl2] at hpred
        simp at hpred
      · rw [hlh, hl2] at hpred
        have hl1 : lookupFile i₁ p = some b := by rw [← heq p]; exact hl2
        have hp1 : p ∈ diskPaths i₁ := mem_paths_of_lookupFile (by rw [hl1]; rfl)
        refine hm p hp1 ?_
        rw [hlh, hl1]
        exact hpred

theorem findCommit_append_fresh (st : RepoState) (tree : Disk) (msg : String) :
    findCommit (st.commits ++ [⟨freshRepoCommitId st, tree, st.headCommit, msg⟩])
      (freshRepoCommitId st) = some ⟨freshRepoCommitId st, tree, st.headCommit, msg⟩ := by
  unfold findCommit
  rw [List.find?_append]
  have h1 : st.commits.find? (fun c => c.cid == freshRepoCommitId st) = none := by
    rw [List.find?_eq_none]
    intro c hc hbeq
    have hcid : c.cid = freshRepoCommitId st := by simpa using hbeq
    have hle := (foldl_max_bounds (st.commits.map (·.cid)) 0).2 c.cid
      (List.mem_map_of_mem (·.cid) hc)
    unfold freshRepoCommitId at hcid
    omega
  rw [h1]
  simp

theorem gitCheckpoint_noChange (st₁ : RepoState) (m : String) (b : Option Int) (h : Nat)
    (hhead : st₁.headCommit = some h)
    (hcond : hasStagedChanges (headTreeOf st₁) (stageAll st₁.index st₁.disk) = false) :
    gitCheckpoint st₁ m b = ({ st₁ with index := stageAll st₁.index st₁.disk }, .ok h) := by
  unfold gitCheckpoint
  rw [if_neg (by rw [hcond]; simp), hhead]

/-- C1: when staging everything produces no change versus HEAD's tree,
checkpoint creates no new commit and returns the existing HEAD commit
id; consequently a second checkpoint run immediately after a successful
first one (with no intervening working-tree change) creates no commit
and returns the same commit id the first one returned. -/
theorem checkpoint_noop_idempotent (st : RepoState) (m₁ m₂ : String)
    (b₁ b₂ : Option Int) :
    (∀ h, hasStagedChanges (headTreeOf st) (stageAll st.index st.disk) = false →
      st.headCommit = some h →
      (gitCheckpoint st m₁ b₁).2 = .ok h ∧
      (gitCheckpoint st m₁ b₁).1.commits = st.commits) ∧
    (∀ id₁, (gitCheckpoint st m₁ b₁).2 = .ok id₁ →
      (gitCheckpoint (gitCheckpoint st m₁ b₁).1 m₂ b₂).2 = .ok id₁ ∧
      (gitCheckpoint (gitCheckpoint st m₁ b₁).1 m₂ b₂).1.commits
        = (gitCheckpoint st m₁ b₁).1.commits) := by
  constructor
  · intro h hnc hhead
    rw [gitCheckpoint_noChange st m₁ b₁ h hhead hnc]
    exact ⟨rfl, rfl⟩
  · intro id₁ hok
    rcases hch : hasStagedChanges (headTreeOf st) (stageAll st.index st.disk) with _ | _
    · -- first call: nothing staged, HEAD id is returned
      rcases hhead : st.headCommit with _ | h
      · exfalso
        unfold gitCheckpoint at hok
        rw [if_neg (by rw [hch]; simp), hhead] at hok
        cases hok
      · have hcall := gitCheckpoint_noChange st m₁ b₁ h hhead hch
        have hid : id₁ = h := by
          rw [hcall] at hok
          exact (Except.ok.inj hok).symm
        rw [hcall]
        have hcond₂ : hasStagedChanges
            (headTreeOf ({ st with index := stageAll st.index st.disk }))
            (stageAll ({ st with index := stageAll st.index st.disk } : RepoState).index
              ({ st with index := stageAll st.index st.disk } : RepoState).disk)
            = false := by
          show hasStagedChanges (headTreeOf st)
            (stageAll (stageAll st.index st.disk) st.disk) = false
          exact hasStagedChanges_congr _ _ _ hch
            (fun p => lookupFile_stageAll_idem st.index st.disk p)
        have hcall₂ := gitCheckpoint_noChange
          ({ st with index := stageAll st.index st.disk }) m₂ b₂ h hhead hcond₂
        rw [hid]
        exact ⟨by rw [hcall₂], by rw [hcall₂]⟩
    · -- first call commits the staged tree
      have hcall : gitCheckpoint st m₁ b₁
          = ({ st with
                index := stageAll st.index st.disk
                headCommit := some (freshRepoCommitId st)
                commits := st.commits ++
                  [⟨freshRepoCommitId st, stageAll st.index st.disk, st.headCommit,
                    checkpointMessage m₁ b₁⟩] },
             .ok (freshRepoCommitId st)) := by
        unfold gitCheckpoint
        rw [if_pos hch]
      have hid : id₁ = freshRepoCommitId st := by
        rw [hcall] at hok
        exact (Except.ok.inj hok).symm
      rw [hcall]
      have hht : headTreeOf ({ st with
            index := stageAll st.index st.disk
            headCommit := some (freshRepoCommitId st)
            commits := st.commits ++
              [⟨freshRepoCommitId st, stageAll st.index st.disk, st.headCommit,
                checkpointMessage m₁ b₁⟩] })
          = stageAll st.index st.disk := by
        unfold headTreeOf
        show (match findCommit (st.commits ++
            [⟨freshRepoCommitId st, stageAll st.index st.disk, st.headCommit,
              checkpointMessage m₁ b₁⟩]) (freshRepoCommitId st) with
          | some c => c.tree
          | none => []) = stageAll st.index st.disk
        rw [findCommit_append_fresh]
      have hcond₂ : hasStagedChanges
          (headTreeOf ({ st with
            index := stageAll st.index st.disk
            headCommit := some (freshRepoCommitId st)
            commits := st.commits ++
              [⟨freshRepoCommitId st, stageAll st.index st.disk, st.headCommit,
                checkpointMessage m₁ b₁⟩] }))
          (stageAll ({ st with
            index := stageAll st.index st.disk
            headCommit := some (freshRepoCommitId st)
            commits := st.commits ++
              [⟨freshRepoCommitId st, stageAll st.index st.disk, st.headCommit,
                checkpointMessage m₁ b₁⟩] } : RepoState).index
            ({ st with
            index := stageAll st.index st.disk
            headCommit := some (freshRepoCommitId st)
            commits := st.commits ++
              [⟨freshRepoCommitId st, stageAll st.index st.disk, st.headCommit,
                checkpointMessage m₁ b₁⟩] } : RepoState).disk) = false := by
        rw [hht]
        show hasStagedChanges (stageAll st.index st.disk)
          (stageAll (stageAll st.index st.disk) st.disk) = false
        exact hasStagedChanges_congr _ _ _
          (hasStagedChanges_self (stageAll st.index st.disk))
          (fun p => lookupFile_stageAll_idem st.index st.disk p)
      have hcall₂ := gitCheckpoint_noChange
        ({ st with
            index := stageAll st.index st.disk
            headCommit := some (freshRepoCommitId st)
            commits := st.commits ++
              [⟨freshRepoCommitId st, stageAll st.index st.disk, st.headCommit,
                checkpointMessage m₁ b₁⟩] }) m₂ b₂ (freshRepoCommitId st) rfl hcond₂
      rw [hid]
      exact ⟨by rw [hcall₂], by rw [hcall₂]⟩

theorem checkpoint_noop_idempotent_witness :
    (gitCheckpoint ⟨[("x.txt", [104, 105])], [("x.txt", [104, 105])], some 1,
        [⟨1, [("x.txt", [104, 105])], none, "[WORKFLOW-CHECKPOINT] first"⟩]⟩
      "again" none).2 = .ok 1 ∧
    (gitCheckpoint ⟨[("x.txt", [104, 105])], [("x.txt", [104, 105])], some 1,
        [⟨1, [("x.txt", [104, 105])], none, "[WORKFLOW-CHECKPOINT] first"⟩]⟩
      "again" none).1.commits
      = [⟨1, [("x.txt", [104, 105])], none, "[WORKFLOW-CHECKPOINT] first"⟩] :=
  (checkpoint_noop_idempotent ⟨[("x.txt", [104, 105])], [("x.txt", [104, 105])], some 1,
      [⟨1, [("x.txt", [104, 105])], none, "[WORKFLOW-CHECKPOINT] first"⟩]⟩
    "again" "again" none none).1 1 (by decide) rfl

/-! ## Checkpoint listing (`_git_list_checkpoints`, C5)

The commit walk from HEAD is a list of commits, newest first.  The
message-level parsing (`in`, `str.replace`, `str.strip`, `str.split`,
`int`) is modelled character-by-character with Python's semantics. -/

def charsContain (pat : List Char) : List Char → Bool
  | [] => charsStartWith [] pat
  | c :: t => charsStartWith (c :: t) pat || charsContain pat t

/-- Python's `tok in s`. -/
def strContainsTok (s tok : String) : Bool := charsContain tok.data s.data

/-- Python's `s.replace(pat, rep)` (all occurrences, left to right). -/
def charsReplace (pat rep : List Char) (s : List Char) : List Char :=
  if pat.isEmpty then s
  else
    match s with
    | [] => []
    | c :: t =>
      if charsStartWith (c :: t) pat then
        rep ++ charsReplace pat rep (t.drop (pat.length - 1))
      else
        c :: charsReplace pat rep t
termination_by s.length
decreasing_by
  all_goals simp [List.length_drop]
  omega

/-- Python's `s.split(sep)` for a non-empty separator. -/
def charsSplitTok (pat : List Char) (s : List Char) : List (List Char) :=
  if pat.isEmpty then [s]
  else
    match s with
    | [] => [[]]
    | c :: t =>
      if charsStartWith (c :: t) pat then
        [] :: charsSplitTok pat (t.drop (pat.length - 1))
      else
        match charsSplitTok pat t with
        | [] => [[c]]
        | first :: rest => (c :: first) :: rest
termination_by s.length
decreasing_by
  all_goals simp [List.length_drop]
  omega

/-- Python's no-argument `s.split()`: split on whitespace runs, no empty
pieces. -/
def charsSplitWs (s : List Char) : List (List Char) :=
  match s with
  | [] => []
  | c :: t =>
    if c.isWhitespace then charsSplitWs t
    else (c :: t.takeWhile (fun x => !x.isWhitespace)) ::
      charsSplitWs (t.dropWhile (fun x => !x.isWhitespace))
termination_by s.length
decreasing_by
  all_goals simp
  · exact Nat.lt_succ_of_le (List.dropWhile_sublist _).length_le

/-- Python's `s.strip()`. -/
def pyStripChars (cs : List Char) : List Char :=
  ((cs.dropWhile Char.isWhitespace).reverse.dropWhile Char.isWhitespace).reverse

def digitVal (c : Char) : Option Nat :=
  if 48 ≤ c.toNat ∧ c.toNat ≤ 57 then some (c.toNat - 48) else none

def parseDigits (cs : List Char) : Option Nat :=
  if cs.isEmpty then none
  else
    cs.foldl (fun acc c =>
      match acc, digitVal c with
      | some a, some d => some (a * 10 + d)
      | _, _ => none) (some 0)

/-- Python's `int(s)` on a whitespace-free token: optional sign followed
by decimal digits. -/
def pyParseInt (s : String) : Option Int :=
  match s.data with
  | '-' :: rest => (parseDigits rest).map (fun n => -(n : Int))
  | '+' :: rest => (parseDigits rest).map (fun n => (n : Int))
  | cs => (parseDigits cs).map (fun n => (n : Int))

/-- Metadata parsing in `_git_list_checkpoints`: when `message_index=`
occurs in the message, take the text after its first occurrence up to
the next whitespace and parse it as an integer; any failure leaves the
bound index empty. -/
def parseBoundIndex (message : String) : Option Int :=
  if strContainsTok message "message_index=" then
    match charsSplitTok ("message_index=".data) message.data with
    | _ :: part :: _ =>
      match charsSplitWs part with
      | [] => none
      | tok :: _ => pyParseInt (String.mk tok)
    | _ => none
  else none

/-- Message cleanup in `_git_list_checkpoints`: drop the checkpoint
token, strip, and keep only the text before a `|` separator. -/
def cleanMessage (message : String) : String :=
  let stripped := pyStripChars
    (charsReplace ("[WORKFLOW-CHECKPOINT]".data) [] message.data)
  if strContainsTok (String.mk stripped) "|" then
    match charsSplitTok ("|".data) stripped with
    | first :: _ => String.mk (pyStripChars first)
    | [] => String.mk stripped
  else String.mk stripped

structure CommitInfo where
  sha : String
  message : String
  commitTime : Nat
deriving DecidableEq, Repr

structure CheckpointEntry where
  checkpointId : String
  fullSha : String
  message : String
  boundMessageIndex : Option Int
  timestamp : Nat
deriving DecidableEq, Repr

/-- The entry built for one checkpoint commit. -/
def entryOf (c : CommitInfo) : CheckpointEntry :=
  ⟨String.mk (c.sha.data.take 7), c.sha, cleanMessage c.message,
   parseBoundIndex c.message, c.commitTime⟩

/-- The loop of `_git_list_checkpoints`: walk the (already truncated)
commit list, skip ids already seen, collect commits whose message
carries the checkpoint token, and `break` once `limit` entries exist. -/
def lcGo (limit : Nat) : List CommitInfo → List String → List CheckpointEntry →
    List CheckpointEntry
  | [], _, acc => acc
  | c :: rest, seen, acc =>
    if seen.contains c.sha then lcGo limit rest seen acc
    else
      if strContainsTok c.message "[WORKFLOW-CHECKPOINT]" then
        if limit ≤ acc.length + 1 then acc ++ [entryOf c]
        else lcGo limit rest (c.sha :: seen) (acc ++ [entryOf c])
      else lcGo limit rest (c.sha :: seen) acc

/-- `_git_list_checkpoints`: the walker is created with
`max_entries = limit * 2`, so only that prefix of the history is ever
examined. -/
def gitListCheckpoints (history : List CommitInfo) (limit : Nat) :
    List CheckpointEntry :=
  lcGo limit (history.take (limit * 2)) [] []

/-- First-occurrence dedup by commit id, relative to already-seen ids. -/
def dedupSeen (seen : List String) : List CommitInfo → List CommitInfo
  | [] => []
  | c :: rest =>
    if seen.contains c.sha then dedupSeen seen rest
    else c :: dedupSeen (c.sha :: seen) rest

/-- Modelled from the spec: the claim's reading of `list_checkpoints` —
walk the whole history from HEAD, keep exactly the commits whose message
carries the checkpoint token, newest-first, dedup by commit id, and
return at most `limit` entries. -/
def listCheckpointsClaimed (history : List CommitInfo) (limit : Nat) :
    List CheckpointEntry :=
  (((dedupSeen [] history).filter
    (fun c => strContainsTok c.message "[WORKFLOW-CHECKPOINT]")).take limit).map
    entryOf

theorem lcGo_spec (limit : Nat) : ∀ (cs : List CommitInfo) (seen : List String)
    (acc : List CheckpointEntry), acc.length < limit →
    lcGo limit cs seen acc = acc ++
      (((dedupSeen seen cs).filter
        (fun c => strContainsTok c.message "[WORKFLOW-CHECKPOINT]")).take
          (limit - acc.length)).map entryOf := by
  intro cs
  induction cs with
  | nil =>
    intro seen acc hlt
    simp [lcGo, dedupSeen]
  | cons c rest ih =>
    intro seen acc hlt
    by_cases hseen : seen.contains c.sha
    · have hseen' : c.sha ∈ seen := by simpa using hseen
      have h1 : lcGo limit (c :: rest) seen acc = lcGo limit rest seen acc := by
        simp [lcGo, hseen']
      have h2 : dedupSeen seen (c :: rest) = dedupSeen seen rest := by
        simp [dedupSeen, hseen']
      rw [h1, h2]
      exact ih seen acc hlt
    · have hseen' : c.sha ∉ seen := by simpa using hseen
      have h2 : dedupSeen seen (c :: rest) = c :: dedupSeen (c.sha :: seen) rest := by
        simp [dedupSeen, hseen']
      by_cases htok : strContainsTok c.message "[WORKFLOW-CHECKPOINT]" = true
      · by_cases hbr : limit ≤ acc.length + 1
        · have h1 : lcGo limit (c :: rest) seen acc = acc ++ [entryOf c] := by
            simp [lcGo, hseen', htok, hbr]
          have hlim : limit - acc.length = 1 := by omega
          rw [h1, h2, List.filter_cons, if_pos htok, hlim, List.take_succ_cons,
            List.take_zero, List.map_cons, List.map_nil]
        · have h1 : lcGo limit (c :: rest) seen acc
              = lcGo limit rest (c.sha :: seen) (acc ++ [entryOf c]) := by
            simp [lcGo, hseen', htok, hbr]
          have hlt' : (acc ++ [entryOf c]).length < limit := by
            simp
            omega
          rw [h1, ih (c.sha :: seen) (acc ++ [entryOf c]) hlt', h2,
            List.filter_cons, if_pos htok]
          have hlim : limit - acc.length = (limit - (acc.length + 1)) + 1 := by omega
          rw [hlim, List.take_succ_cons, List.map_cons]
          simp
      · have h1 : lcGo limit (c :: rest) seen acc
            = lcGo limit rest (c.sha :: seen) acc := by
          simp [lcGo, hseen', htok]
        rw [h1, ih (c.sha :: seen) acc hlt, h2,
          List.filter_cons, if_neg htok]

theorem dedupSeen_sha_props : ∀ (cs : List CommitInfo) (seen : List String),
    ((dedupSeen seen cs).map (·.sha)).Nodup ∧
      ∀ x ∈ dedupSeen seen cs, x.sha ∉ seen := by
  intro cs
  induction cs with
  | nil => intro seen; simp [dedupSeen]
  | cons c rest ih =>
    intro seen
    by_cases hseen : seen.contains c.sha
    · have hseen' : c.sha ∈ seen := by simpa using hseen
      have h2 : dedupSeen seen (c :: rest) = dedupSeen seen rest := by
        simp [dedupSeen, hseen']
      rw [h2]
      exact ih seen
    · have hseen' : c.sha ∉ seen := by simpa using hseen
      have h2 : dedupSeen seen (c :: rest) = c :: dedupSeen (c.sha :: seen) rest := by
        simp [dedupSeen, hseen']
      rw [h2]
      constructor
      · rw [List.map_cons, List.nodup_cons]
        constructor
        · intro hmem
          rcases List.mem_map.1 hmem with ⟨x, hx, hxs⟩
          exact (ih (c.sha :: seen)).2 x hx (hxs ▸ List.mem_cons_self _ _)
        · exact (ih (c.sha :: seen)).1
      · intro x hx
        rcases List.mem_cons.1 hx with h | h
        · subst h
          exact hseen'
        · intro hxseen
          exact (ih (c.sha :: seen)).2 x h (List.mem_cons_of_mem _ hxseen)

/-- C5 (amended): `list_checkpoints` examines only the first `2·limit`
commits of the walk from HEAD (the walker is capped at
`max_entries = limit * 2`); among those it returns exactly the commits
whose message carries the checkpoint token, newest-first, deduplicated
by commit id, capped at `limit` entries, each entry parsed through the
metadata parser — so the result has at most `limit` entries with
pairwise-distinct commit ids, but checkpoints deeper than `2·limit`
commits are missed even when fewer than `limit` entries are returned. -/
theorem list_checkpoints_spec (history : List CommitInfo) (limit : Nat) :
    gitListCheckpoints history limit
      = (((dedupSeen [] (history.take (limit * 2))).filter
          (fun c => strContainsTok c.message "[WORKFLOW-CHECKPOINT]")).take
            limit).map entryOf ∧
    (gitListCheckpoints history limit).length ≤ limit ∧
    ((gitListCheckpoints history limit).map (·.fullSha)).Nodup := by
  have hmain : gitListCheckpoints history limit
      = (((dedupSeen [] (history.take (limit * 2))).filter
          (fun c => strContainsTok c.message "[WORKFLOW-CHECKPOINT]")).take
            limit).map entryOf := by
    rcases Nat.eq_zero_or_pos limit with h0 | hpos
    · subst h0
      simp [gitListCheckpoints, lcGo]
    · have h := lcGo_spec limit (history.take (limit * 2)) [] [] (by simpa using hpos)
      simpa [gitListCheckpoints] using h
  refine ⟨hmain, ?_, ?_⟩
  · rw [hmain, List.length_map, List.length_take]
    omega
  · rw [hmain]
    have hcomp : ((((dedupSeen [] (history.take (limit * 2))).filter
        (fun c => strContainsTok c.message "[WORKFLOW-CHECKPOINT]")).take
          limit).map entryOf).map (·.fullSha)
        = (((dedupSeen [] (history.take (limit * 2))).filter
          (fun c => strContainsTok c.message "[WORKFLOW-CHECKPOINT]")).take
            limit).map (·.sha) := by
      rw [List.map_map]
      rfl
    rw [hcomp]
    have hsub : List.Sublist
        ((((dedupSeen [] (history.take (limit * 2))).filter
          (fun c => strContainsTok c.message "[WORKFLOW-CHECKPOINT]")).take
            limit).map (·.sha))
        ((dedupSeen [] (history.take (limit * 2))).map (·.sha)) :=
      ((List.take_sublist _ _).trans (List.filter_sublist _)).map _
    exact hsub.nodup (dedupSeen_sha_props (history.take (limit * 2)) []).1

/-- C5 counterexample: with three commits on the parent chain of which
only the oldest is a checkpoint, and `limit = 1`, the walk stops after
`limit * 2 = 2` commits and the operation returns no entry at all, while
the claim (walk the parent chain, filter by the token, cap at limit)
yields that checkpoint. -/
theorem list_checkpoints_counterexample :
    gitListCheckpoints
      [⟨"a1a1a1a1", "one", 0⟩, ⟨"b2b2b2b2", "two", 0⟩,
       ⟨"c3c3c3c3", "[WORKFLOW-CHECKPOINT] hi", 5⟩] 1 = [] ∧
    listCheckpointsClaimed
      [⟨"a1a1a1a1", "one", 0⟩, ⟨"b2b2b2b2", "two", 0⟩,
       ⟨"c3c3c3c3", "[WORKFLOW-CHECKPOINT] hi", 5⟩] 1 ≠ [] := by
  constructor
  · decide
  · decide
